import Mathlib

/-!
# Tyche boundary conditions (`Boundary.h`)

A shallow embedding of the boundary classes declared in `src/Boundary.h`.

* The arithmetic of `recalc_constants` is the arithmetic of C++ `double`:
  `Double` models IEEE 754 binary64 values with round-to-nearest-even
  products and square roots, overflow to infinity, gradual underflow and NaN.
  The sign of zero is not kept.
* `init_prev_distance` performs no arithmetic and is generic in the scalar.
* The flux constructor and the crossing decision are stated over a linear
  ordered field with `sqrt` and `exp` as parameters, instantiated with
  `Real.sqrt` and `Real.exp` where their values matter.
* `std::vector` is `List`; an object modified through a reference is passed
  in and returned.
* The member functions whose bodies are in `Boundary.h` (`recalc_constants`,
  `init_prev_distance`, the `FluxBoundary` constructor) are translated from
  the source.  Bodies that live in `Boundary.impl.h` are not part of the
  sources; the one needed is modelled from the specification and marked
  as such.
-/

namespace Tyche

/-! ## Data model -/

/-- A point or displacement in space (`Vect3d`). -/
structure Vect3d (R : Type) where
  x : R
  y : R
  z : R

/-- Euclidean length of a vector, `Vect3d::norm()`. -/
def Vect3d.norm {R : Type} [LinearOrderedField R] (sqrt : R → R) (v : Vect3d R) : R :=
  sqrt (v.x * v.x + v.y * v.y + v.z * v.z)

/-- The particle container of a species: `r` holds the positions and
`size()` is their number. -/
structure Molecules (R : Type) where
  r : List (Vect3d R)

/-- A species: diffusion coefficient `D` and its particles `mols`. -/
structure Species (R : Type) where
  D : R
  mols : Molecules R

/-- The state of a `DiffusionCorrectedBoundary`: the registered species (kept
by a base class outside `Boundary.h`, indexed like the records), the
per-species distance records `all_prev_distance` and `all_curr_distance`,
the correction constants `D_dt` and `test_this_distance_from_wall`, and the
variates `uni` will return, in order (`uni 0` is the next draw). -/
structure DiffusionCorrectedBoundary (R : Type) where
  all_species : List (Species R)
  all_prev_distance : List (List R)
  all_curr_distance : List (List R)
  D_dt : R
  test_this_distance_from_wall : R
  uni : Nat → R

/-! ## The arithmetic of `double` -/

/-- A value of C++ `double` (IEEE 754 binary64): a finite value, given by the
rational it denotes, an infinity with its sign, or NaN. -/
inductive Double where
  | finite (q : ℚ)
  | inf (negative : Bool)
  | nan
deriving DecidableEq

namespace Double

/-- Halving loop behind `floorLog2`; the first argument bounds the number of
iterations. -/
def floorLog2Aux : ℕ → ℕ → ℕ
  | 0, _ => 0
  | fuel + 1, n => if n < 2 then 0 else floorLog2Aux fuel (n / 2) + 1

/-- The position of the leading binary digit of `n`: the largest `k` with
`2 ^ k ≤ n`, and `0` for `n = 0`. -/
def floorLog2 (n : ℕ) : ℕ :=
  floorLog2Aux n n

/-- The binary exponent of a positive rational `q`: the integer `e` with
`2 ^ e ≤ q < 2 ^ (e + 1)`.  The difference of the leading digit positions of
numerator and denominator is `e` or `e + 1`. -/
def exponent (q : ℚ) : ℤ :=
  if (2 : ℚ) ^ ((floorLog2 q.num.toNat : ℤ) - (floorLog2 q.den : ℤ)) ≤ q then
    (floorLog2 q.num.toNat : ℤ) - (floorLog2 q.den : ℤ)
  else (floorLog2 q.num.toNat : ℤ) - (floorLog2 q.den : ℤ) - 1

/-- The integer nearest to `x`, ties to the even one. -/
def roundHalfEven (x : ℚ) : ℤ :=
  if x - ⌊x⌋ < 1 / 2 then ⌊x⌋
  else if 1 / 2 < x - ⌊x⌋ then ⌊x⌋ + 1
  else if ⌊x⌋ % 2 = 0 then ⌊x⌋
  else ⌊x⌋ + 1

/-- The spacing of the `double`s around a positive rational `q`:
`2 ^ (e - 52)` for the binary exponent `e` of `q`, and `2 ^ (-1074)` below
`2 ^ (-1022)`, where the values are subnormal. -/
def ulp (q : ℚ) : ℚ :=
  2 ^ (max (exponent q) (-1022) - 52)

/-- The multiple of `ulp q` nearest to the positive rational `q`, ties to the
even multiple. -/
def roundValue (q : ℚ) : ℚ :=
  roundHalfEven (q / ulp q) * ulp q

/-- The `double` nearest to the positive rational `q`; a rounded value of
`2 ^ 1024` or more overflows to infinity. -/
def roundPos (q : ℚ) : Double :=
  if 2 ^ 1024 ≤ roundValue q then inf false
  else finite (roundValue q)

/-- Negation of a `double`. -/
def neg : Double → Double
  | finite q => finite (-q)
  | inf s => inf (!s)
  | nan => nan

/-- The `double` nearest to a rational (round to nearest, ties to even): the
value of a decimal literal and of an exactly computed result. -/
def ofRat (q : ℚ) : Double :=
  if q = 0 then finite 0
  else if 0 < q then roundPos q
  else neg (roundPos (-q))

/-- The product `x * y` of two `double`s: the exact product correctly rounded;
NaN for a NaN operand and for infinity times zero. -/
def mul : Double → Double → Double
  | nan, _ => nan
  | _, nan => nan
  | inf s, inf t => inf (xor s t)
  | inf s, finite q => if q = 0 then nan else inf (xor s (decide (q < 0)))
  | finite q, inf s => if q = 0 then nan else inf (xor s (decide (q < 0)))
  | finite a, finite b => ofRat (a * b)

/-- Digit-by-digit loop behind `isqrt`: `r` is the root found so far and the
first numeric argument the number of binary digits still to decide. -/
def isqrtAux (n : ℕ) : ℕ → ℕ → ℕ
  | 0, r => r
  | b + 1, r => if (r + 2 ^ b) * (r + 2 ^ b) ≤ n then isqrtAux n b (r + 2 ^ b) else isqrtAux n b r

/-- The integer square root: the largest `r` with `r * r ≤ n`. -/
def isqrt (n : ℕ) : ℕ :=
  isqrtAux n (floorLog2 n / 2 + 1) 0

/-- The integer nearest to the square root of `x ≥ 0`, ties to the even one:
the integer root `r` of the integer part of `x`, or `r + 1` when `x` exceeds
`(r + 1/2) ^ 2`. -/
def roundSqrt (x : ℚ) : ℤ :=
  if ((isqrt ⌊x⌋.toNat : ℚ) + 1 / 2) ^ 2 < x then (isqrt ⌊x⌋.toNat : ℤ) + 1
  else if x < ((isqrt ⌊x⌋.toNat : ℚ) + 1 / 2) ^ 2 then (isqrt ⌊x⌋.toNat : ℤ)
  else if isqrt ⌊x⌋.toNat % 2 = 0 then (isqrt ⌊x⌋.toNat : ℤ)
  else (isqrt ⌊x⌋.toNat : ℤ) + 1

/-- The `double` nearest to the square root of the positive rational `q`: the
root has binary exponent `e / 2`, where `e` is the exponent of `q`, and is
rounded to a multiple of `2 ^ (e / 2 - 52)`. -/
def sqrtPos (q : ℚ) : Double :=
  finite (roundSqrt (q / (2 ^ (exponent q / 2 - 52)) ^ 2) * 2 ^ (exponent q / 2 - 52))

/-- The library function `sqrt` on `double`: correctly rounded, NaN for a
negative argument, and infinity for infinity. -/
def sqrt : Double → Double
  | nan => nan
  | inf s => if s then nan else inf false
  | finite q =>
    if q < 0 then nan
    else if q = 0 then finite 0
    else sqrtPos q

instance : Mul Double := ⟨mul⟩

instance : Zero Double := ⟨finite 0⟩

instance : OfScientific Double := ⟨fun m s e => ofRat (OfScientific.ofScientific m s e)⟩

/-- The comparison `x <= y` of two `double`s; false when an operand is NaN. -/
def le : Double → Double → Bool
  | finite a, finite b => decide (a ≤ b)
  | finite _, inf s => !s
  | inf s, finite _ => s
  | inf s, inf t => s || !t
  | _, _ => false

end Double

/-! ## Functions defined in `Boundary.h` -/

/-- The member `DiffusionCorrectedBoundary::recalc_constants`:
`D_dt = s.D*new_dt; test_this_distance_from_wall = 5.0*sqrt(2.0*s.D*new_dt);`
in `double` arithmetic, the product `2.0*s.D*new_dt` evaluated from the left. -/
def recalc_constants (b : DiffusionCorrectedBoundary Double) (s : Species Double)
    (new_dt : Double) : DiffusionCorrectedBoundary Double :=
  { b with
    D_dt := s.D * new_dt
    test_this_distance_from_wall := 5.0 * Double.sqrt (2.0 * s.D * new_dt) }

variable {R : Type} [LinearOrderedField R]

/-- The distribution `boost::uniform_real<>(min, max)` a variate generator
is built with. -/
structure uniform_real (R : Type) where
  min : R
  max : R

/-- The values a generator over `uniform_real<>(min, max)` can return: the
half-open range `[min, max)`. -/
def uniform_real.range (u : uniform_real R) : Set R :=
  Set.Ico u.min u.max

/-- A `FluxBoundary`: the injection `rate`, the anchor `p` and tangents `t1`,
`t2` of the patch, and the distributions of the offset generators `uni1`,
`uni2`. -/
structure FluxBoundary (R : Type) where
  rate : R
  p : Vect3d R
  t1 : Vect3d R
  t2 : Vect3d R
  uni1 : uniform_real R
  uni2 : uniform_real R

set_option linter.dupNamespace false in
/-- The constructor `FluxBoundary::FluxBoundary(p, t1, t2, rate)`.  Its
initialiser list copies the arguments and builds `uni1` over
`uniform_real<>(0, t1.norm())` and `uni2` over `uniform_real<>(0, t2.norm())`;
the body is empty.  The result is an `Option` so that a rejected construction
could be expressed as `none`; the source has no statement that rejects. -/
def FluxBoundary.FluxBoundary (sqrt : R → R) (p t1 t2 : Vect3d R) (rate : R) :
    Option (FluxBoundary R) :=
  some
    { rate := rate
      p := p
      t1 := t1
      t2 := t2
      uni1 := { min := 0, max := t1.norm sqrt }
      uni2 := { min := 0, max := t2.norm sqrt } }

/-! ## Functions declared in `Boundary.h` whose bodies are not in the sources -/

/-- Modelled from the spec: `DiffusionCorrectedBoundary::particle_crossed_boundary`,
whose body is in `Boundary.impl.h`.  Spec, in its order:
* "queries `curr_distance` for the particle", recomputed from the live
  position and stored in the record;
* "if `prev_distance` exceeds `threshold`, returns false immediately";
* otherwise "if the particle's raw position already indicates it crossed
  (opposite signs of `prev_distance`/`curr_distance`, or `curr_distance`
  beyond the boundary), the decision is crossed unconditionally";
* otherwise "`p = exp(-2 * prev_distance * curr_distance / D_dt)`; draw a
  uniform variate in [0,1) and report crossed iff the variate is less than
  `p`".
The result is `none` for a species that is not registered or a particle
without a record ("a programming error (fatal, not recoverable)"), and where
the quotient would have the divisor `D_dt = 0`, which the field embedding of
`double` does not cover. -/
def particle_crossed_boundary (exp : R → R) (distance_to_boundary : Vect3d R → R)
    (b : DiffusionCorrectedBoundary R) (p_i s_i : Nat) :
    Option (Bool × DiffusionCorrectedBoundary R) :=
  match b.all_species[s_i]?, b.all_prev_distance[s_i]?, b.all_curr_distance[s_i]? with
  | some s, some prev_distance, some curr_distance =>
    match s.mols.r[p_i]?, prev_distance[p_i]? with
    | some r, some prev =>
      if p_i < curr_distance.length then
        let curr := distance_to_boundary r
        let b1 := { b with
          all_curr_distance := b.all_curr_distance.set s_i (curr_distance.set p_i curr) }
        if b.test_this_distance_from_wall < prev then some (false, b1)
        else if (prev < 0 ∧ 0 < curr) ∨ (0 < prev ∧ curr < 0) ∨ curr < 0 then some (true, b1)
        else if b.D_dt = 0 then none
        else
          some (decide (b.uni 0 < exp (-2 * prev * curr / b.D_dt)),
            { b1 with uni := fun n => b.uni (n + 1) })
      else none
    | _, _ => none
  | _, _, _ => none

/-! ## Concrete geometry, species and boundary states used in the examples -/

/-- The scenario species of the specification: `D = 1.0`, no particles. -/
def scenario_species : Species Double :=
  { D := 1.0, mols := { r := [] } }

/-- A species whose diffusion coefficient is close to the largest `double`. -/
def huge_species : Species Double :=
  { D := 1e308, mols := { r := [] } }

/-- A species whose diffusion coefficient is small enough for `D * dt` to be
subnormal at `dt = 1e-162`. -/
def tiny_species : Species Double :=
  { D := 3e-162, mols := { r := [] } }

/-- A boundary with no registered species and zeroed constants. -/
def empty_boundary (R : Type) [Zero R] : DiffusionCorrectedBoundary R :=
  { all_species := []
    all_prev_distance := []
    all_curr_distance := []
    D_dt := 0
    test_this_distance_from_wall := 0
    uni := fun _ => 0 }

/-- The signed distance to the boundary of the half-space `x ≥ 0`. -/
def x_distance {R : Type} (v : Vect3d R) : R :=
  v.x

/-- A species with `D = 1.0` whose only particle is outside the half-space
after the step. -/
def escaped_species : Species ℝ :=
  { D := 1, mols := { r := [⟨-0.5, 0, 0⟩] } }

/-- The particle of `escaped_species` was at distance 1 before the step; the
constants are those of `D = 1.0` and `dt = 0.01`, to 16 digits. -/
def far_boundary : DiffusionCorrectedBoundary ℝ :=
  { all_species := [escaped_species]
    all_prev_distance := [[1]]
    all_curr_distance := [[1]]
    D_dt := 0.01
    test_this_distance_from_wall := 0.7071067811865475
    uni := fun _ => 0.5 }

/-- The species of the specification's scenario: `D = 1.0`, one particle at
distance 0.02 after the step. -/
def inside_species : Species ℝ :=
  { D := 1, mols := { r := [⟨0.02, 0, 0⟩] } }

/-- The specification's scenario: the particle was at distance 0.05 before
the step, the constants are those of `D = 1.0` and `dt = 0.01`, to 16 digits,
and the next variate is 0.5. -/
def scenario_boundary : DiffusionCorrectedBoundary ℝ :=
  { all_species := [inside_species]
    all_prev_distance := [[0.05]]
    all_curr_distance := [[0.05]]
    D_dt := 0.01
    test_this_distance_from_wall := 0.7071067811865475
    uni := fun _ => 0.5 }

/-! # Theorems -/

/-! ## The arithmetic of `double` -/

namespace Double

/-- The halving loop computes the binary logarithm when it is given enough
iterations. -/
theorem floorLog2Aux_eq_log (fuel n : ℕ) (h : n ≤ fuel) : floorLog2Aux fuel n = Nat.log 2 n := by
  induction fuel generalizing n with
  | zero =>
    have h0 : n = 0 := Nat.le_zero.1 h
    subst h0
    simp [floorLog2Aux]
  | succ fuel ih =>
    unfold floorLog2Aux
    by_cases h2 : n < 2
    · rw [if_pos h2, Nat.log_of_lt h2]
    · rw [if_neg h2, Nat.log_of_one_lt_of_le (by norm_num) (Nat.le_of_not_lt h2)]
      rw [ih (n / 2) (by omega)]

/-- The leading digit position is the binary logarithm `Nat.log 2`. -/
theorem floorLog2_eq_log (n : ℕ) : floorLog2 n = Nat.log 2 n :=
  floorLog2Aux_eq_log n n (le_refl n)

/-- The digit-by-digit loop keeps the root bracketed. -/
theorem isqrtAux_spec (n : ℕ) (b r : ℕ) (h1 : r * r ≤ n) (h2 : n < (r + 2 ^ b) * (r + 2 ^ b)) :
    isqrtAux n b r * isqrtAux n b r ≤ n ∧ n < (isqrtAux n b r + 1) * (isqrtAux n b r + 1) := by
  induction b generalizing r with
  | zero =>
    simp only [isqrtAux]
    exact ⟨h1, by simpa using h2⟩
  | succ b ih =>
    unfold isqrtAux
    by_cases hc : (r + 2 ^ b) * (r + 2 ^ b) ≤ n
    · rw [if_pos hc]
      apply ih _ hc
      have e : r + 2 ^ b + 2 ^ b = r + 2 ^ (b + 1) := by rw [pow_succ]; ring
      rw [e]; exact h2
    · rw [if_neg hc]
      exact ih _ h1 (Nat.lt_of_not_le hc)

/-- The integer square root is `Nat.sqrt`. -/
theorem isqrt_eq_sqrt (n : ℕ) : isqrt n = Nat.sqrt n := by
  apply Nat.eq_sqrt.2
  unfold isqrt
  apply isqrtAux_spec n _ 0 (by simp)
  rw [floorLog2_eq_log]
  have h := Nat.lt_pow_succ_log_self (b := 2) (by norm_num) n
  have h3 : Nat.log 2 n + 1 ≤ 2 * (Nat.log 2 n / 2 + 1) := by omega
  calc n < 2 ^ (Nat.log 2 n).succ := h
    _ ≤ 2 ^ (2 * (Nat.log 2 n / 2 + 1)) := Nat.pow_le_pow_right (by norm_num) h3
    _ = (0 + 2 ^ (Nat.log 2 n / 2 + 1)) * (0 + 2 ^ (Nat.log 2 n / 2 + 1)) := by
      rw [zero_add, ← pow_add]; congr 1; ring

/-- The rounded integer is the floor or the floor plus one. -/
theorem roundHalfEven_bounds (x : ℚ) : (⌊x⌋ : ℤ) ≤ roundHalfEven x ∧ roundHalfEven x ≤ ⌊x⌋ + 1 := by
  unfold roundHalfEven
  split_ifs <;> constructor <;> omega

/-- An integer rounds to itself. -/
theorem roundHalfEven_intCast (n : ℤ) : roundHalfEven (n : ℚ) = n := by
  unfold roundHalfEven
  simp

/-- Rounding does not go below an integer lower bound. -/
theorem le_roundHalfEven (n : ℤ) (x : ℚ) (h : (n : ℚ) ≤ x) : n ≤ roundHalfEven x :=
  le_trans (Int.le_floor.2 h) (roundHalfEven_bounds x).1

/-- Rounding does not go above an integer upper bound. -/
theorem roundHalfEven_le (n : ℤ) (x : ℚ) (h : x ≤ (n : ℚ)) : roundHalfEven x ≤ n := by
  rcases eq_or_lt_of_le h with h | h
  · rw [h, roundHalfEven_intCast]
  · have : ⌊x⌋ < n := Int.floor_lt.2 h
    have := (roundHalfEven_bounds x).2
    omega

/-- Rounding to the nearest integer: the error is at most one half. -/
theorem roundHalfEven_nearest (x : ℚ) : |(roundHalfEven x : ℚ) - x| ≤ 1 / 2 := by
  have h1 := Int.floor_le x
  have h2 := Int.lt_floor_add_one x
  unfold roundHalfEven
  split_ifs with a b c
  · rw [abs_le]; constructor <;> linarith
  · rw [abs_le]; push_cast; constructor <;> linarith
  · rw [abs_le]; constructor <;> linarith
  · rw [abs_le]; push_cast; constructor <;> linarith

/-- Powers of two are positive. -/
theorem two_zpow_pos (k : ℤ) : (0 : ℚ) < 2 ^ k :=
  zpow_pos (by norm_num) k

/-- The next power of two is the double. -/
theorem two_zpow_succ (k : ℤ) : (2 : ℚ) ^ (k + 1) = 2 * 2 ^ k := by
  rw [zpow_add₀ (by norm_num : (2 : ℚ) ≠ 0), zpow_one, mul_comm]

/-- The binary exponent brackets the rational: `2 ^ e ≤ q < 2 ^ (e + 1)`. -/
theorem exponent_spec (q : ℚ) (hq : 0 < q) :
    (2 : ℚ) ^ exponent q ≤ q ∧ q < 2 ^ (exponent q + 1) := by
  have hnum : 0 < q.num := Rat.num_pos.2 hq
  have hn0 : q.num.toNat ≠ 0 := by omega
  have hd0 : q.den ≠ 0 := q.den_nz
  have hcast : ((q.num.toNat : ℕ) : ℚ) = (q.num : ℚ) := by
    have : ((q.num.toNat : ℕ) : ℤ) = q.num := Int.toNat_of_nonneg hnum.le
    exact_mod_cast congrArg (fun z : ℤ => (z : ℚ)) this
  have hqeq : q = (q.num.toNat : ℚ) / (q.den : ℚ) := by
    rw [hcast]; exact (Rat.num_div_den q).symm
  have hdpos : (0 : ℚ) < (q.den : ℚ) := by exact_mod_cast Nat.pos_of_ne_zero hd0
  have ha1 : ((2 : ℚ) ^ (floorLog2 q.num.toNat)) ≤ (q.num.toNat : ℚ) := by
    rw [floorLog2_eq_log]; exact_mod_cast Nat.pow_log_le_self 2 hn0
  have ha2 : (q.num.toNat : ℚ) < (2 : ℚ) ^ (floorLog2 q.num.toNat + 1) := by
    rw [floorLog2_eq_log]; exact_mod_cast Nat.lt_pow_succ_log_self (by norm_num) _
  have hb1 : ((2 : ℚ) ^ (floorLog2 q.den)) ≤ (q.den : ℚ) := by
    rw [floorLog2_eq_log]; exact_mod_cast Nat.pow_log_le_self 2 hd0
  have hb2 : (q.den : ℚ) < (2 : ℚ) ^ (floorLog2 q.den + 1) := by
    rw [floorLog2_eq_log]; exact_mod_cast Nat.lt_pow_succ_log_self (by norm_num) _
  have hsub : (2 : ℚ) ^ ((floorLog2 q.num.toNat : ℤ) - (floorLog2 q.den : ℤ))
      = 2 ^ (floorLog2 q.num.toNat) / 2 ^ (floorLog2 q.den) := by
    rw [zpow_sub₀ (by norm_num : (2 : ℚ) ≠ 0), zpow_natCast, zpow_natCast]
  have hpb : (0 : ℚ) < 2 ^ (floorLog2 q.den) := pow_pos (by norm_num) _
  have hpa : (0 : ℚ) < 2 ^ (floorLog2 q.num.toNat) := pow_pos (by norm_num) _
  unfold exponent
  split_ifs with hc
  · refine ⟨hc, ?_⟩
    rw [two_zpow_succ, hsub]
    rw [pow_succ] at ha2
    have key : (q.num.toNat : ℚ) / (q.den : ℚ)
        < 2 * (2 ^ floorLog2 q.num.toNat / 2 ^ floorLog2 q.den) := by
      rw [div_lt_iff₀ hdpos]
      calc (q.num.toNat : ℚ) < 2 ^ floorLog2 q.num.toNat * 2 := ha2
        _ = 2 * (2 ^ floorLog2 q.num.toNat / 2 ^ floorLog2 q.den) * 2 ^ floorLog2 q.den := by
          field_simp; ring
        _ ≤ 2 * (2 ^ floorLog2 q.num.toNat / 2 ^ floorLog2 q.den) * (q.den : ℚ) := by
          apply mul_le_mul_of_nonneg_left hb1
          positivity
    exact lt_of_eq_of_lt hqeq key
  · refine ⟨?_, ?_⟩
    · have e : (2 : ℚ) ^ ((floorLog2 q.num.toNat : ℤ) - (floorLog2 q.den : ℤ) - 1)
          = 2 ^ (floorLog2 q.num.toNat) / 2 ^ (floorLog2 q.den + 1) := by
        rw [sub_sub, zpow_sub₀ (by norm_num : (2 : ℚ) ≠ 0), zpow_natCast]
        congr 1
        exact_mod_cast (zpow_natCast (2 : ℚ) (floorLog2 q.den + 1))
      rw [e]
      have key : (2 : ℚ) ^ (floorLog2 q.num.toNat) / 2 ^ (floorLog2 q.den + 1)
          ≤ (q.num.toNat : ℚ) / (q.den : ℚ) := by
        apply div_le_div₀ ?_ ha1 hdpos hb2.le
        exact_mod_cast Nat.zero_le _
      exact le_of_le_of_eq key hqeq.symm
    · rw [sub_add_cancel]
      exact lt_of_not_le hc

/-- The binary exponent is determined by the bracket. -/
theorem exponent_unique (q : ℚ) (hq : 0 < q) (e : ℤ) (h1 : (2 : ℚ) ^ e ≤ q)
    (h2 : q < 2 ^ (e + 1)) : exponent q = e := by
  obtain ⟨s1, s2⟩ := exponent_spec q hq
  have a : e < exponent q + 1 :=
    (zpow_lt_zpow_iff_right₀ (by norm_num : (1 : ℚ) < 2)).1 (lt_of_le_of_lt h1 s2)
  have b : exponent q < e + 1 :=
    (zpow_lt_zpow_iff_right₀ (by norm_num : (1 : ℚ) < 2)).1 (lt_of_le_of_lt s1 h2)
  omega

/-- Doubling a positive rational raises its binary exponent by one. -/
theorem exponent_two_mul (q : ℚ) (hq : 0 < q) : exponent (2 * q) = exponent q + 1 := by
  obtain ⟨s1, s2⟩ := exponent_spec q hq
  apply exponent_unique _ (by positivity)
  · rw [two_zpow_succ]; linarith
  · rw [two_zpow_succ]; linarith

/-- The spacing is positive. -/
theorem ulp_pos (q : ℚ) : 0 < ulp q :=
  two_zpow_pos _

/-- A mantissa of `2 ^ 52` units is the power of two of the exponent. -/
theorem two_pow_52_mul (k : ℤ) : (2 : ℚ) ^ (52 : ℕ) * 2 ^ (k - 52) = 2 ^ k := by
  rw [← zpow_natCast (2 : ℚ) 52, ← zpow_add₀ (by norm_num : (2 : ℚ) ≠ 0)]
  congr 1
  push_cast
  ring

/-- A mantissa of `2 ^ 53` units is the next power of two. -/
theorem two_pow_53_mul (k : ℤ) : (2 : ℚ) ^ (53 : ℕ) * 2 ^ (k - 52) = 2 ^ (k + 1) := by
  rw [← zpow_natCast (2 : ℚ) 53, ← zpow_add₀ (by norm_num : (2 : ℚ) ≠ 0)]
  congr 1
  push_cast
  ring

/-- Doubling a rational of the normal range doubles the spacing. -/
theorem ulp_two_mul (q : ℚ) (hq : 0 < q) (hE : -1022 ≤ exponent q) : ulp (2 * q) = 2 * ulp q := by
  unfold ulp
  rw [exponent_two_mul q hq, max_eq_left hE, max_eq_left (by omega), ← two_zpow_succ]
  congr 1
  ring

/-- Doubling a rational in the normal range doubles its rounded value. -/
theorem roundValue_two_mul (q : ℚ) (hq : 0 < q) (hE : -1022 ≤ exponent q) :
    roundValue (2 * q) = 2 * roundValue q := by
  unfold roundValue
  rw [ulp_two_mul q hq hE]
  have hu := ulp_pos q
  have e : 2 * q / (2 * ulp q) = q / ulp q := by
    field_simp
    ring
  rw [e]
  ring

/-- A power of two below `q` bounds the exponent from below. -/
theorem exponent_ge_of_le (q : ℚ) (hq : 0 < q) (k : ℤ) (h : (2 : ℚ) ^ k ≤ q) : k ≤ exponent q := by
  have s2 := (exponent_spec q hq).2
  have : k < exponent q + 1 :=
    (zpow_lt_zpow_iff_right₀ (by norm_num : (1 : ℚ) < 2)).1 (lt_of_le_of_lt h s2)
  omega

/-- A power of two above `q` bounds the exponent from above. -/
theorem exponent_lt_of_lt (q : ℚ) (hq : 0 < q) (k : ℤ) (h : q < (2 : ℚ) ^ k) : exponent q < k := by
  have s1 := (exponent_spec q hq).1
  exact (zpow_lt_zpow_iff_right₀ (by norm_num : (1 : ℚ) < 2)).1 (lt_of_le_of_lt s1 h)

/-- The rounded mantissa is at most `2 ^ 53`. -/
theorem mantissa_le (q : ℚ) (hq : 0 < q) :
    (roundHalfEven (q / ulp q) : ℚ) ≤ 2 ^ (53 : ℕ) := by
  have hu := ulp_pos q
  have hz : roundHalfEven (q / ulp q) ≤ (2 : ℤ) ^ (53 : ℕ) := by
    apply roundHalfEven_le
    rw [div_le_iff₀ hu]
    have s2 := (exponent_spec q hq).2
    have hle : exponent q + 1 ≤ max (exponent q) (-1022) + 1 := by
      have := le_max_left (exponent q) (-1022)
      omega
    have h3 : (2 : ℚ) ^ (exponent q + 1) ≤ 2 ^ (max (exponent q) (-1022) + 1) :=
      zpow_le_zpow_right₀ (by norm_num) hle
    have h4 : (((2 : ℤ) ^ (53 : ℕ) : ℤ) : ℚ) * ulp q = 2 ^ (max (exponent q) (-1022) + 1) := by
      rw [Int.cast_pow, Int.cast_ofNat]
      exact two_pow_53_mul _
    linarith
  exact_mod_cast hz

/-- The rounded mantissa is not negative. -/
theorem mantissa_nonneg (q : ℚ) (hq : 0 < q) : (0 : ℚ) ≤ (roundHalfEven (q / ulp q) : ℚ) := by
  have hz : (0 : ℤ) ≤ roundHalfEven (q / ulp q) := by
    apply le_roundHalfEven
    have hu := ulp_pos q
    push_cast
    positivity
  exact_mod_cast hz

/-- The rounded value of a positive rational is not negative. -/
theorem roundValue_nonneg (q : ℚ) (hq : 0 < q) : 0 ≤ roundValue q := by
  unfold roundValue
  exact mul_nonneg (mantissa_nonneg q hq) (ulp_pos q).le

/-- Rounding keeps a rational of the normal range in the normal range. -/
theorem roundValue_ge (q : ℚ) (hnorm : (2 : ℚ) ^ (-1022 : ℤ) ≤ q) :
    (2 : ℚ) ^ (-1022 : ℤ) ≤ roundValue q := by
  have hq : 0 < q := lt_of_lt_of_le (two_zpow_pos _) hnorm
  have hE : -1022 ≤ exponent q := exponent_ge_of_le q hq _ hnorm
  have s1 := (exponent_spec q hq).1
  have hu := ulp_pos q
  have hue : ulp q = 2 ^ (exponent q - 52) := by
    unfold ulp; rw [max_eq_left hE]
  have hm : (2 : ℤ) ^ (52 : ℕ) ≤ roundHalfEven (q / ulp q) := by
    apply le_roundHalfEven
    rw [le_div_iff₀ hu, hue, Int.cast_pow, Int.cast_ofNat, two_pow_52_mul]
    exact s1
  have hm' : ((2 : ℚ) ^ (52 : ℕ)) ≤ (roundHalfEven (q / ulp q) : ℚ) := by exact_mod_cast hm
  unfold roundValue
  calc (2 : ℚ) ^ (-1022 : ℤ) ≤ 2 ^ exponent q := zpow_le_zpow_right₀ (by norm_num) hE
    _ = 2 ^ (52 : ℕ) * ulp q := by rw [hue, two_pow_52_mul]
    _ ≤ (roundHalfEven (q / ulp q) : ℚ) * ulp q := by
      apply mul_le_mul_of_nonneg_right hm' hu.le

/-- A rounded value is a `double`: rounding it again changes nothing. -/
theorem roundValue_idem (q : ℚ) (hq : 0 < q) (hv : 0 < roundValue q) :
    roundValue (roundValue q) = roundValue q := by
  have hu := ulp_pos q
  have hm53 := mantissa_le q hq
  have hrv : roundValue q = (roundHalfEven (q / ulp q) : ℚ) * ulp q := rfl
  -- the value is at most `2 ^ (e + 1)`
  have hvle : roundValue q ≤ 2 ^ (max (exponent q) (-1022) + 1) := by
    have h4 : (2 : ℚ) ^ (53 : ℕ) * ulp q = 2 ^ (max (exponent q) (-1022) + 1) :=
      two_pow_53_mul _
    rw [← h4, hrv]
    exact mul_le_mul_of_nonneg_right hm53 hu.le
  have hE' : exponent (roundValue q) ≤ max (exponent q) (-1022) + 1 := by
    have : exponent (roundValue q) < max (exponent q) (-1022) + 1 + 1 := by
      apply exponent_lt_of_lt _ hv
      apply lt_of_le_of_lt hvle
      exact zpow_lt_zpow_right₀ (by norm_num) (by omega)
    omega
  have hu' := ulp_pos (roundValue q)
  -- the quotient by the unit of the value is an integer
  have hint : ∃ z : ℤ, roundValue q = (z : ℚ) * ulp (roundValue q) := by
    rcases lt_or_eq_of_le hE' with hlt | heq
    · -- same or smaller unit
      have hle : max (exponent (roundValue q)) (-1022) ≤ max (exponent q) (-1022) := by
        apply max_le
        · omega
        · exact le_max_right _ _
      obtain ⟨j, hj⟩ := Int.eq_ofNat_of_zero_le (sub_nonneg.2 hle)
      refine ⟨roundHalfEven (q / ulp q) * 2 ^ j, ?_⟩
      have e : ulp q = 2 ^ j * ulp (roundValue q) := by
        unfold ulp
        rw [← zpow_natCast (2 : ℚ) j, ← zpow_add₀ (by norm_num : (2 : ℚ) ≠ 0)]
        congr 1
        rw [← hj]
        ring
      calc roundValue q = (roundHalfEven (q / ulp q) : ℚ) * ulp q := hrv
        _ = (roundHalfEven (q / ulp q) : ℚ) * (2 ^ j * ulp (roundValue q)) :=
          congrArg (fun t => (roundHalfEven (q / ulp q) : ℚ) * t) e
        _ = ((roundHalfEven (q / ulp q) * 2 ^ j : ℤ) : ℚ) * ulp (roundValue q) := by
          push_cast
          ring
    · -- the value is the next power of two
      have s1 := (exponent_spec _ hv).1
      rw [heq] at s1
      have hveq : roundValue q = 2 ^ (max (exponent q) (-1022) + 1) := le_antisymm hvle s1
      refine ⟨(2 : ℤ) ^ (52 : ℕ), ?_⟩
      have hmax : max (exponent (roundValue q)) (-1022) = max (exponent q) (-1022) + 1 := by
        rw [heq]
        apply max_eq_left
        have := le_max_right (exponent q) (-1022)
        omega
      have e : ulp (roundValue q) = 2 ^ (max (exponent q) (-1022) + 1 - 52) := by
        unfold ulp; rw [hmax]
      rw [e, Int.cast_pow, Int.cast_ofNat, two_pow_52_mul]
      exact hveq
  obtain ⟨z, hz⟩ := hint
  have hquot : roundValue q / ulp (roundValue q) = (z : ℚ) := by
    rw [div_eq_iff hu'.ne']
    exact hz
  calc roundValue (roundValue q)
      = (roundHalfEven (roundValue q / ulp (roundValue q)) : ℚ) * ulp (roundValue q) := rfl
    _ = (z : ℚ) * ulp (roundValue q) := by rw [hquot, roundHalfEven_intCast]
    _ = roundValue q := hz.symm

/-- A positive rational is rounded by `roundPos`. -/
theorem ofRat_pos (q : ℚ) (hq : 0 < q) : ofRat q = roundPos q := by
  unfold ofRat
  rw [if_neg hq.ne', if_pos hq]

/-- Rounding the double of a rational of the normal range. -/
theorem roundPos_two_mul (q : ℚ) (hq : 0 < q) (hE : -1022 ≤ exponent q) :
    roundPos (2 * q)
      = if 2 ^ 1024 ≤ 2 * roundValue q then inf false else finite (2 * roundValue q) := by
  unfold roundPos
  rw [roundValue_two_mul q hq hE]

/-- The rounded value is nearest: it differs from `q` by at most half the
spacing. -/
theorem roundValue_nearest (q : ℚ) : |roundValue q - q| ≤ ulp q / 2 := by
  have hu := ulp_pos q
  have h := roundHalfEven_nearest (q / ulp q)
  have e : roundValue q - q = ((roundHalfEven (q / ulp q) : ℚ) - q / ulp q) * ulp q := by
    unfold roundValue
    field_simp
  rw [e, abs_mul, abs_of_pos hu]
  calc |(roundHalfEven (q / ulp q) : ℚ) - q / ulp q| * ulp q ≤ 1 / 2 * ulp q :=
        mul_le_mul_of_nonneg_right h hu.le
    _ = ulp q / 2 := by ring

/-- A positive rational that rounds to itself is its own rounded value and is
below `2 ^ 1024`. -/
theorem roundValue_of_ofRat (a : ℚ) (ha : 0 < a) (hrep : ofRat a = finite a) :
    roundValue a = a ∧ ¬ (2 : ℚ) ^ 1024 ≤ roundValue a := by
  rw [ofRat_pos a ha] at hrep
  unfold roundPos at hrep
  by_cases h : (2 : ℚ) ^ 1024 ≤ roundValue a
  · rw [if_pos h] at hrep
    exact absurd hrep (by simp)
  · rw [if_neg h] at hrep
    exact ⟨Double.finite.inj hrep, h⟩

/-- The doubling commutes with the product, `(2 * a) * c = 2 * (a * c)` in
`double` arithmetic, when `a` is a normal `double`, `2 * a` does not overflow
and the exact product `a * c` is at least the smallest normal `double`. -/
theorem mul_two_assoc (a c : ℚ) (hrep : ofRat a = finite a)
    (ha : (2 : ℚ) ^ (-1022 : ℤ) ≤ a) (hfin : 2 * a < 2 ^ 1024)
    (hac : (2 : ℚ) ^ (-1022 : ℤ) ≤ a * c) :
    mul (mul (finite 2) (finite a)) (finite c) = mul (finite 2) (mul (finite a) (finite c)) := by
  have hapos : 0 < a := lt_of_lt_of_le (two_zpow_pos _) ha
  have hacpos : 0 < a * c := lt_of_lt_of_le (two_zpow_pos _) hac
  have hEa : -1022 ≤ exponent a := exponent_ge_of_le a hapos _ ha
  have hEac : -1022 ≤ exponent (a * c) := exponent_ge_of_le _ hacpos _ hac
  obtain ⟨hva, _⟩ := roundValue_of_ofRat a hapos hrep
  -- the doubled coefficient is exact
  have h2a : mul (finite 2) (finite a) = finite (2 * a) := by
    show ofRat (2 * a) = finite (2 * a)
    rw [ofRat_pos _ (by linarith), roundPos_two_mul a hapos hEa, hva, if_neg (not_le.2 hfin)]
  -- the left side
  have hl : mul (mul (finite 2) (finite a)) (finite c)
      = if (2 : ℚ) ^ 1024 ≤ 2 * roundValue (a * c) then inf false
        else finite (2 * roundValue (a * c)) := by
    rw [h2a]
    show ofRat (2 * a * c) = _
    rw [mul_assoc, ofRat_pos _ (by linarith), roundPos_two_mul _ hacpos hEac]
  rw [hl]
  -- the right side
  have hr0 := roundValue_nonneg (a * c) hacpos
  have hrge := roundValue_ge (a * c) hac
  have hrpos : 0 < roundValue (a * c) := lt_of_lt_of_le (two_zpow_pos _) hrge
  have hprod : mul (finite a) (finite c) = roundPos (a * c) := by
    show ofRat (a * c) = _
    exact ofRat_pos _ hacpos
  rw [hprod]
  unfold roundPos
  by_cases h : (2 : ℚ) ^ 1024 ≤ roundValue (a * c)
  · rw [if_pos h, if_pos (by linarith)]
    simp [mul]
  · rw [if_neg h]
    show _ = ofRat (2 * roundValue (a * c))
    rw [ofRat_pos _ (by linarith),
      roundPos_two_mul _ hrpos (exponent_ge_of_le _ hrpos _ hrge),
      roundValue_idem _ hacpos hrpos]

/-- The rounded square root is nearest: it differs from the real square root
by at most one half. -/
theorem roundSqrt_nearest (x : ℚ) (hx : 0 ≤ x) :
    |((roundSqrt x : ℤ) : ℝ) - Real.sqrt (x : ℝ)| ≤ 1 / 2 := by
  have hx' : (0 : ℝ) ≤ (x : ℝ) := by exact_mod_cast hx
  have hfl : (0 : ℤ) ≤ ⌊x⌋ := Int.floor_nonneg.2 hx
  have hn : ((⌊x⌋.toNat : ℕ) : ℤ) = ⌊x⌋ := Int.toNat_of_nonneg hfl
  have h1 : Nat.sqrt ⌊x⌋.toNat * Nat.sqrt ⌊x⌋.toNat ≤ ⌊x⌋.toNat := Nat.sqrt_le _
  have h2 : ⌊x⌋.toNat < (Nat.sqrt ⌊x⌋.toNat + 1) * (Nat.sqrt ⌊x⌋.toNat + 1) :=
    Nat.lt_succ_sqrt _
  have hnq : ((⌊x⌋.toNat : ℕ) : ℚ) = ((⌊x⌋ : ℤ) : ℚ) := by exact_mod_cast congrArg (fun z : ℤ => (z : ℚ)) hn
  have hlo : ((Nat.sqrt ⌊x⌋.toNat : ℕ) : ℚ) ^ 2 ≤ x := by
    have : ((Nat.sqrt ⌊x⌋.toNat : ℕ) : ℚ) ^ 2 ≤ ((⌊x⌋.toNat : ℕ) : ℚ) := by
      rw [sq]; exact_mod_cast h1
    rw [hnq] at this
    exact le_trans this (Int.floor_le x)
  have hhi : x < (((Nat.sqrt ⌊x⌋.toNat : ℕ) : ℚ) + 1) ^ 2 := by
    have : ((⌊x⌋.toNat : ℕ) : ℚ) + 1 ≤ (((Nat.sqrt ⌊x⌋.toNat : ℕ) : ℚ) + 1) ^ 2 := by
      rw [sq]; exact_mod_cast h2
    rw [hnq] at this
    exact lt_of_lt_of_le (Int.lt_floor_add_one x) this
  have hr0 : (0 : ℝ) ≤ ((Nat.sqrt ⌊x⌋.toNat : ℕ) : ℝ) := Nat.cast_nonneg _
  have hloR : ((Nat.sqrt ⌊x⌋.toNat : ℕ) : ℝ) ≤ Real.sqrt (x : ℝ) := by
    apply Real.le_sqrt_of_sq_le
    exact_mod_cast hlo
  have hhiR : Real.sqrt (x : ℝ) < ((Nat.sqrt ⌊x⌋.toNat : ℕ) : ℝ) + 1 := by
    rw [Real.sqrt_lt' (by positivity)]
    exact_mod_cast hhi
  unfold roundSqrt
  rw [isqrt_eq_sqrt]
  have hmidpos : (0 : ℝ) ≤ ((Nat.sqrt ⌊x⌋.toNat : ℕ) : ℝ) + 1 / 2 := by positivity
  split_ifs with a b c
  · -- above the midpoint
    have : ((Nat.sqrt ⌊x⌋.toNat : ℕ) : ℝ) + 1 / 2 ≤ Real.sqrt (x : ℝ) := by
      apply Real.le_sqrt_of_sq_le
      have a' : ((((Nat.sqrt ⌊x⌋.toNat : ℕ) : ℚ) + 1 / 2) ^ 2 : ℚ) ≤ x := a.le
      have a2 := (Rat.cast_le (K := ℝ)).2 a'
      push_cast at a2
      exact a2
    rw [abs_le]; push_cast; constructor <;> linarith
  · -- below the midpoint
    have : Real.sqrt (x : ℝ) ≤ ((Nat.sqrt ⌊x⌋.toNat : ℕ) : ℝ) + 1 / 2 := by
      rw [Real.sqrt_le_left hmidpos]
      have b' : x ≤ ((((Nat.sqrt ⌊x⌋.toNat : ℕ) : ℚ) + 1 / 2) ^ 2 : ℚ) := b.le
      have b2 := (Rat.cast_le (K := ℝ)).2 b'
      push_cast at b2
      exact b2
    rw [abs_le]; push_cast; constructor <;> linarith
  · have : Real.sqrt (x : ℝ) ≤ ((Nat.sqrt ⌊x⌋.toNat : ℕ) : ℝ) + 1 / 2 := by
      rw [Real.sqrt_le_left hmidpos]
      have b' : x ≤ ((((Nat.sqrt ⌊x⌋.toNat : ℕ) : ℚ) + 1 / 2) ^ 2 : ℚ) := not_lt.1 a
      have b2 := (Rat.cast_le (K := ℝ)).2 b'
      push_cast at b2
      exact b2
    rw [abs_le]; push_cast; constructor <;> linarith
  · have : ((Nat.sqrt ⌊x⌋.toNat : ℕ) : ℝ) + 1 / 2 ≤ Real.sqrt (x : ℝ) := by
      apply Real.le_sqrt_of_sq_le
      have a' : ((((Nat.sqrt ⌊x⌋.toNat : ℕ) : ℚ) + 1 / 2) ^ 2 : ℚ) ≤ x := not_lt.1 b
      have a2 := (Rat.cast_le (K := ℝ)).2 a'
      push_cast at a2
      exact a2
    rw [abs_le]; push_cast; constructor <;> linarith

end Double

/-! ## Correction constants (`recalc_constants`) -/

/-- In `double` arithmetic `1.0 * 0.01` is `0.01`. -/
theorem scenario_product : (1.0 : Double) * 0.01 = 0.01 := by
  decide!

/-- At `D = 1.0`, `dt = 0.01` the doubling commutes with the product. -/
theorem scenario_doubling : (2.0 : Double) * 1.0 * 0.01 = 2.0 * ((1.0 : Double) * 0.01) := by
  decide!

/-- The threshold of the scenario step: the `double` 0.7071067811865475. -/
theorem scenario_threshold_value :
    (5.0 : Double) * Double.sqrt (2.0 * 1.0 * 0.01)
      = Double.finite (1592262918131443 / 2251799813685248) := by
  decide!

/-- The literal `2.0` is the `double` 2. -/
theorem two_literal : (2.0 : Double) = Double.finite 2 := by
  decide!

/-- The literal `1.0` is the `double` 1, and 1 is a `double`. -/
theorem one_literal : (1.0 : Double) = Double.finite 1 ∧ Double.ofRat 1 = Double.finite 1 := by
  decide!

/-- The literal `0.01` is the `double` nearest to one hundredth. -/
theorem hundredth_literal :
    (0.01 : Double) = Double.finite (5764607523034235 / 576460752303423488) := by
  decide!

/-- C4, as stated, fails in the arithmetic of the code.  With `D = 1e308` and
`dt = 0.1` (both non-negative) the product `2.0 * D` overflows, so the
threshold is infinite, while `D_dt` is 1.0000000000000001e307 and
`5 * sqrt (2 * D_dt)` is 2.2360679774997897e154.  With `D = 3e-162` and
`dt = 1e-162` the product `D * dt` is subnormal: `(2 * D) * dt` is 5e-324 and
`2 * (D * dt)` is 1e-323, so the threshold is 1.1113793747425387e-161 and
`5 * sqrt (2 * D_dt)` is 1.5717277847026287e-161. -/
theorem recalc_constants_doubling_fails :
    (Double.le 0 huge_species.D = true ∧ Double.le 0 0.1 = true ∧
      (recalc_constants (empty_boundary Double) huge_species 0.1).D_dt
        = 1.0000000000000001e307 ∧
      (recalc_constants (empty_boundary Double) huge_species 0.1).test_this_distance_from_wall
        = Double.inf false ∧
      5.0 * Double.sqrt
          (2.0 * (recalc_constants (empty_boundary Double) huge_species 0.1).D_dt)
        = 2.2360679774997897e154 ∧
      (recalc_constants (empty_boundary Double) huge_species 0.1).test_this_distance_from_wall
        ≠ 5.0 * Double.sqrt
          (2.0 * (recalc_constants (empty_boundary Double) huge_species 0.1).D_dt)) ∧
    (Double.le 0 tiny_species.D = true ∧ Double.le 0 1e-162 = true ∧
      (recalc_constants (empty_boundary Double) tiny_species 1e-162).D_dt = 5e-324 ∧
      2.0 * tiny_species.D * 1e-162 = 5e-324 ∧
      2.0 * (tiny_species.D * 1e-162) = 1e-323 ∧
      (recalc_constants (empty_boundary Double) tiny_species 1e-162).test_this_distance_from_wall
        = 1.1113793747425387e-161 ∧
      5.0 * Double.sqrt
          (2.0 * (recalc_constants (empty_boundary Double) tiny_species 1e-162).D_dt)
        = 1.5717277847026287e-161 ∧
      (recalc_constants (empty_boundary Double) tiny_species 1e-162).test_this_distance_from_wall
        ≠ 5.0 * Double.sqrt
          (2.0 * (recalc_constants (empty_boundary Double) tiny_species 1e-162).D_dt)) := by
  decide!

/-- C4, amended: for every species and step, `recalc_constants` leaves `D_dt`
equal to the `double` product `D * dt` and `test_this_distance_from_wall`
equal to `5 * sqrt ((2 * D) * dt)`, evaluated in `double` arithmetic in the
order of the source, and changes no other member.  The threshold is
`5 * sqrt (2 * D_dt)` whenever `(2 * D) * dt` and `2 * (D * dt)` are the same
`double`, in particular whenever `D` is a normal `double` (at least
`2 ^ (-1022)`), `2 * D` does not overflow (it is below `2 ^ 1024`) and the
exact product of `D` and `dt` is at least `2 ^ (-1022)`.  With `D = 1.0` and
`dt = 0.01` that is so: `D_dt` is `0.01`, the threshold is
`5 * sqrt (2 * D_dt)`, its value is 0.7071067811865475, which lies between
0.707 and 0.708 and exceeds 0.05. -/
theorem recalc_constants_spec (b : DiffusionCorrectedBoundary Double) (s : Species Double)
    (dt : Double) :
    (recalc_constants b s dt).D_dt = s.D * dt ∧
    (recalc_constants b s dt).test_this_distance_from_wall
      = 5.0 * Double.sqrt (2.0 * s.D * dt) ∧
    (2.0 * s.D * dt = 2.0 * (s.D * dt) →
      (recalc_constants b s dt).test_this_distance_from_wall
        = 5.0 * Double.sqrt (2.0 * (recalc_constants b s dt).D_dt)) ∧
    (∀ a c : ℚ, s.D = Double.finite a → dt = Double.finite c →
      Double.ofRat a = Double.finite a →
      (2 : ℚ) ^ (-1022 : ℤ) ≤ a → 2 * a < 2 ^ 1024 → (2 : ℚ) ^ (-1022 : ℤ) ≤ a * c →
      (recalc_constants b s dt).test_this_distance_from_wall
        = 5.0 * Double.sqrt (2.0 * (recalc_constants b s dt).D_dt)) ∧
    (recalc_constants b s dt).all_species = b.all_species ∧
    (recalc_constants b s dt).all_prev_distance = b.all_prev_distance ∧
    (recalc_constants b s dt).all_curr_distance = b.all_curr_distance ∧
    (s.D = 1.0 → dt = 0.01 →
      (recalc_constants b s dt).D_dt = 0.01 ∧
      (recalc_constants b s dt).test_this_distance_from_wall
        = 5.0 * Double.sqrt (2.0 * (recalc_constants b s dt).D_dt) ∧
      (recalc_constants b s dt).test_this_distance_from_wall
        = Double.finite (1592262918131443 / 2251799813685248) ∧
      (0.707 : ℚ) < 1592262918131443 / 2251799813685248 ∧
      (1592262918131443 / 2251799813685248 : ℚ) < 0.708 ∧
      (0.05 : ℚ) < 1592262918131443 / 2251799813685248) := by
  have hdouble : 2.0 * s.D * dt = 2.0 * (s.D * dt) →
      (recalc_constants b s dt).test_this_distance_from_wall
        = 5.0 * Double.sqrt (2.0 * (recalc_constants b s dt).D_dt) := by
    intro h
    show 5.0 * Double.sqrt (2.0 * s.D * dt) = 5.0 * Double.sqrt (2.0 * (s.D * dt))
    rw [h]
  refine ⟨rfl, rfl, hdouble, ?_, rfl, rfl, rfl, ?_⟩
  · intro a c hD hdt hrep ha hfin hac
    apply hdouble
    rw [hD, hdt]
    show Double.mul (Double.mul 2.0 (Double.finite a)) (Double.finite c)
      = Double.mul 2.0 (Double.mul (Double.finite a) (Double.finite c))
    rw [two_literal]
    exact Double.mul_two_assoc a c hrep ha hfin hac
  intro h1 h2
  refine ⟨?_, ?_, ?_, by norm_num, by norm_num, by norm_num⟩
  · show s.D * dt = 0.01
    rw [h1, h2]
    exact scenario_product
  · apply hdouble
    rw [h1, h2]
    exact scenario_doubling
  · show 5.0 * Double.sqrt (2.0 * s.D * dt) = _
    rw [h1, h2]
    exact scenario_threshold_value

/-- The scenario of C4 (`D = 1.0`, `dt = 0.01`): the doubling commutes with
the product, `D_dt` is `0.01` and the threshold is `5 * sqrt (2 * D_dt)`, the
`double` 0.7071067811865475. -/
theorem recalc_constants_spec_witness :
    2.0 * scenario_species.D * 0.01 = 2.0 * (scenario_species.D * 0.01) ∧
    (recalc_constants (empty_boundary Double) scenario_species 0.01).D_dt = 0.01 ∧
    (recalc_constants (empty_boundary Double) scenario_species 0.01).test_this_distance_from_wall
      = 5.0 * Double.sqrt
        (2.0 * (recalc_constants (empty_boundary Double) scenario_species 0.01).D_dt) ∧
    (recalc_constants (empty_boundary Double) scenario_species 0.01).test_this_distance_from_wall
      = Double.finite (1592262918131443 / 2251799813685248) :=
  have h := recalc_constants_spec (empty_boundary Double) scenario_species 0.01
  ⟨scenario_doubling, (h.2.2.2.2.2.2.2 rfl rfl).1,
    h.2.2.2.1 1 (5764607523034235 / 576460752303423488) one_literal.1 hundredth_literal
      one_literal.2 (by norm_num) (by norm_num) (by norm_num),
    (h.2.2.2.2.2.2.2 rfl rfl).2.2.1⟩

/-- With `D = 0` and a finite step, `recalc_constants` leaves `D_dt = 0` and the
threshold `0`; it records nothing else about the degenerate step. -/
theorem recalc_constants_zero (b : DiffusionCorrectedBoundary Double) (s : Species Double)
    (c : ℚ) (h : s.D = Double.finite 0) :
    (recalc_constants b s (Double.finite c)).D_dt = Double.finite 0 ∧
    (recalc_constants b s (Double.finite c)).test_this_distance_from_wall = Double.finite 0 := by
  have z : Double.ofRat 0 = Double.finite 0 := by simp [Double.ofRat]
  constructor
  · show Double.mul s.D (Double.finite c) = Double.finite 0
    rw [h]
    show Double.ofRat (0 * c) = Double.finite 0
    rw [zero_mul, z]
  · show Double.mul 5.0 (Double.sqrt (Double.mul (Double.mul 2.0 s.D) (Double.finite c)))
      = Double.finite 0
    rw [h, two_literal]
    have e1 : Double.mul (Double.finite 2) (Double.finite 0) = Double.finite 0 := by
      show Double.ofRat (2 * 0) = Double.finite 0
      rw [mul_zero, z]
    have e2 : Double.mul (Double.finite 0) (Double.finite c) = Double.finite 0 := by
      show Double.ofRat (0 * c) = Double.finite 0
      rw [zero_mul, z]
    have e3 : Double.sqrt (Double.finite 0) = Double.finite 0 := by
      simp [Double.sqrt]
    have e5 : (5.0 : Double) = Double.finite 5 := by decide!
    rw [e1, e2, e3, e5]
    show Double.ofRat (5 * 0) = Double.finite 0
    rw [mul_zero, z]

/-! ## Flux boundary construction -/

/-- C8, as stated, fails: with the zero tangent `t1 = (0, 0, 0)` the
constructor is not rejected; it yields a boundary whose first offset
generator samples from the empty range `[0, 0)`. -/
theorem flux_degenerate_patch_accepted :
    Vect3d.norm Real.sqrt (⟨0, 0, 0⟩ : Vect3d ℝ) = 0 ∧
    FluxBoundary.FluxBoundary Real.sqrt (⟨0, 0, 0⟩ : Vect3d ℝ) ⟨0, 0, 0⟩ ⟨0, 1, 0⟩ 1 ≠ none ∧
    ∃ fb, FluxBoundary.FluxBoundary Real.sqrt (⟨0, 0, 0⟩ : Vect3d ℝ) ⟨0, 0, 0⟩ ⟨0, 1, 0⟩ 1
        = some fb ∧
      fb.uni1.min = 0 ∧ fb.uni1.max = 0 ∧ fb.uni1.range = ∅ := by
  have h0 : Vect3d.norm Real.sqrt (⟨0, 0, 0⟩ : Vect3d ℝ) = 0 := by
    simp [Vect3d.norm]
  refine ⟨h0, by simp [FluxBoundary.FluxBoundary], _, rfl, rfl, h0, ?_⟩
  show Set.Ico (0 : ℝ) (Vect3d.norm Real.sqrt (⟨0, 0, 0⟩ : Vect3d ℝ)) = ∅
  rw [h0]
  exact Set.Ico_self 0

/-- C8, amended: for every anchor, pair of tangents and rate the constructor
yields a boundary; it stores the arguments and builds the offset generators
over `[0, |t1|)` and `[0, |t2|)`.  A tangent of zero length is accepted and
its generator's range is the empty `[0, 0)`. -/
theorem flux_constructor_total (sqrt : R → R) (p t1 t2 : Vect3d R) (rate : R) :
    ∃ fb, FluxBoundary.FluxBoundary sqrt p t1 t2 rate = some fb ∧
      fb.p = p ∧ fb.t1 = t1 ∧ fb.t2 = t2 ∧ fb.rate = rate ∧
      fb.uni1 = ⟨0, t1.norm sqrt⟩ ∧ fb.uni2 = ⟨0, t2.norm sqrt⟩ ∧
      (t1.norm sqrt = 0 → fb.uni1.range = ∅) ∧
      (t2.norm sqrt = 0 → fb.uni2.range = ∅) := by
  refine ⟨_, rfl, rfl, rfl, rfl, rfl, rfl, rfl, ?_, ?_⟩
  · intro h
    show Set.Ico (0 : R) (t1.norm sqrt) = ∅
    rw [h]
    exact Set.Ico_self 0
  · intro h
    show Set.Ico (0 : R) (t2.norm sqrt) = ∅
    rw [h]
    exact Set.Ico_self 0

/-! ## Distance-record initialisation -/

/-- The decision of `particle_crossed_boundary` for a particle that has a
record: the chain of tests on `prev`, `curr`, the threshold and `D_dt`. -/
theorem particle_crossed_boundary_eval (exp : R → R) (d : Vect3d R → R)
    (b : DiffusionCorrectedBoundary R) (p_i s_i : Nat) (s : Species R)
    (prev_distance curr_distance : List R) (r : Vect3d R) (prev : R)
    (hs : b.all_species[s_i]? = some s)
    (hp : b.all_prev_distance[s_i]? = some prev_distance)
    (hc : b.all_curr_distance[s_i]? = some curr_distance)
    (hr : s.mols.r[p_i]? = some r) (hprev : prev_distance[p_i]? = some prev)
    (hlen : p_i < curr_distance.length) :
    particle_crossed_boundary exp d b p_i s_i =
      if b.test_this_distance_from_wall < prev then
        some (false, { b with
          all_curr_distance := b.all_curr_distance.set s_i (curr_distance.set p_i (d r)) })
      else if (prev < 0 ∧ 0 < d r) ∨ (0 < prev ∧ d r < 0) ∨ d r < 0 then
        some (true, { b with
          all_curr_distance := b.all_curr_distance.set s_i (curr_distance.set p_i (d r)) })
      else if b.D_dt = 0 then none
      else
        some (decide (b.uni 0 < exp (-2 * prev * d r / b.D_dt)),
          { b with
            all_curr_distance := b.all_curr_distance.set s_i (curr_distance.set p_i (d r))
            uni := fun n => b.uni (n + 1) }) := by
  unfold particle_crossed_boundary
  rw [hs, hp, hc]
  simp only [hr, hprev, hlen, if_true]

/-- C1: far-field short-circuit.  For every registered species, every
particle with a record and every variate stream, if the particle's
`prev_distance` is greater than `test_this_distance_from_wall` then
`particle_crossed_boundary` returns false, whatever the geometry says its
current distance is. -/
theorem far_field_short_circuit (exp : R → R) (distance_to_boundary : Vect3d R → R)
    (b : DiffusionCorrectedBoundary R) (p_i s_i : Nat) (s : Species R)
    (prev_distance curr_distance : List R) (r : Vect3d R) (prev : R)
    (hs : b.all_species[s_i]? = some s)
    (hp : b.all_prev_distance[s_i]? = some prev_distance)
    (hc : b.all_curr_distance[s_i]? = some curr_distance)
    (hr : s.mols.r[p_i]? = some r) (hprev : prev_distance[p_i]? = some prev)
    (hlen : p_i < curr_distance.length)
    (hfar : b.test_this_distance_from_wall < prev) :
    ∃ b', particle_crossed_boundary exp distance_to_boundary b p_i s_i = some (false, b') := by
  rw [particle_crossed_boundary_eval exp distance_to_boundary b p_i s_i s prev_distance
    curr_distance r prev hs hp hc hr hprev hlen, if_pos hfar]
  exact ⟨_, rfl⟩

/-- The far-field short-circuit on a particle that was at distance 1 and has
left the half-space: the threshold is below 1 and the decision is false. -/
theorem far_field_short_circuit_witness :
    far_boundary.test_this_distance_from_wall < 1 ∧
    ∃ b', particle_crossed_boundary Real.exp x_distance far_boundary 0 0 = some (false, b') :=
  have hfar : far_boundary.test_this_distance_from_wall < 1 := by
    show (0.7071067811865475 : ℝ) < 1
    norm_num
  ⟨hfar, far_field_short_circuit Real.exp x_distance far_boundary 0 0 escaped_species
    [1] [1] ⟨-0.5, 0, 0⟩ 1 rfl rfl rfl rfl rfl (by decide) hfar⟩

/-- A lower bound on `exp 0.2` from four terms of the exponential series. -/
theorem exp_two_tenths_lower : (1.2213 : ℝ) < Real.exp 0.2 := by
  have h := Real.sum_le_exp_of_nonneg (x := (0.2 : ℝ)) (by norm_num) 4
  simp only [Finset.sum_range_succ, Finset.sum_range_zero, Nat.factorial] at h
  norm_num at h
  linarith

/-- An upper bound on `exp 0.2` from four terms of the exponential series and
the remainder estimate. -/
theorem exp_two_tenths_upper : Real.exp 0.2 < (1.2215 : ℝ) := by
  have h := Real.exp_bound' (x := (0.2 : ℝ)) (by norm_num) (by norm_num) (n := 4) (by norm_num)
  simp only [Finset.sum_range_succ, Finset.sum_range_zero, Nat.factorial] at h
  norm_num at h
  linarith

/-- The cut-off of the scenario, `exp(-0.2)`, lies between 0.818 and 0.820. -/
theorem exp_neg_two_tenths_bounds :
    (0.818 : ℝ) < Real.exp (-0.2) ∧ Real.exp (-0.2) < (0.820 : ℝ) := by
  have hpos : (0 : ℝ) < Real.exp 0.2 := Real.exp_pos _
  have e : Real.exp (-0.2) = (Real.exp 0.2)⁻¹ := Real.exp_neg _
  rw [e]
  constructor
  · rw [lt_inv_comm₀ (by norm_num) hpos]
    have := exp_two_tenths_upper
    norm_num at this ⊢
    linarith
  · rw [inv_lt_comm₀ hpos (by norm_num)]
    have := exp_two_tenths_lower
    norm_num at this ⊢
    linarith

/-- C3: excursion correction.  For every registered species and every
particle with a record, if both endpoints are inside (`prev_distance ≥ 0` and
`curr_distance ≥ 0`), `prev_distance` does not exceed the threshold and
`D_dt > 0`, then `particle_crossed_boundary` returns, and it returns true if
and only if the variate it draws is less than
`exp(-2 * prev_distance * curr_distance / D_dt)`; this holds for every value
of the variate, in particular for those of `[0, 1)`.  With `prev_distance`
0.05, `curr_distance` 0.02 and `D_dt` 0.01 the cut-off is `exp(-0.2)`, which
lies between 0.818 and 0.820. -/
theorem excursion_correction (distance_to_boundary : Vect3d ℝ → ℝ)
    (b : DiffusionCorrectedBoundary ℝ) (p_i s_i : Nat) (s : Species ℝ)
    (prev_distance curr_distance : List ℝ) (r : Vect3d ℝ) (prev : ℝ)
    (hs : b.all_species[s_i]? = some s)
    (hp : b.all_prev_distance[s_i]? = some prev_distance)
    (hc : b.all_curr_distance[s_i]? = some curr_distance)
    (hr : s.mols.r[p_i]? = some r) (hprev : prev_distance[p_i]? = some prev)
    (hlen : p_i < curr_distance.length)
    (hprev0 : 0 ≤ prev) (hcurr0 : 0 ≤ distance_to_boundary r)
    (hnear : prev ≤ b.test_this_distance_from_wall) (hD : 0 < b.D_dt) :
    (∃ crossed b',
      particle_crossed_boundary Real.exp distance_to_boundary b p_i s_i = some (crossed, b') ∧
      (crossed = true ↔
        b.uni 0 < Real.exp (-2 * prev * distance_to_boundary r / b.D_dt))) ∧
    (prev = 0.05 → distance_to_boundary r = 0.02 → b.D_dt = 0.01 →
      Real.exp (-2 * prev * distance_to_boundary r / b.D_dt) = Real.exp (-0.2) ∧
      0.818 < Real.exp (-2 * prev * distance_to_boundary r / b.D_dt) ∧
      Real.exp (-2 * prev * distance_to_boundary r / b.D_dt) < 0.820) := by
  have h1 : ¬ b.test_this_distance_from_wall < prev := not_lt.2 hnear
  have h2 : ¬ ((prev < 0 ∧ 0 < distance_to_boundary r) ∨
      (0 < prev ∧ distance_to_boundary r < 0) ∨ distance_to_boundary r < 0) := by
    rintro (h | h | h)
    · exact absurd h.1 (not_lt.2 hprev0)
    · exact absurd h.2 (not_lt.2 hcurr0)
    · exact absurd h (not_lt.2 hcurr0)
  have h3 : ¬ b.D_dt = 0 := ne_of_gt hD
  constructor
  · rw [particle_crossed_boundary_eval Real.exp distance_to_boundary b p_i s_i s prev_distance
      curr_distance r prev hs hp hc hr hprev hlen, if_neg h1, if_neg h2, if_neg h3]
    exact ⟨_, _, rfl, decide_eq_true_iff⟩
  · intro e1 e2 e3
    have e : -2 * prev * distance_to_boundary r / b.D_dt = -0.2 := by
      rw [e1, e2, e3]; norm_num
    rw [e]
    exact ⟨rfl, exp_neg_two_tenths_bounds.1, exp_neg_two_tenths_bounds.2⟩

/-- The specification's scenario (`D = 1.0`, `dt = 0.01`, distances 0.05 and
0.02, next variate 0.5): the hypotheses of the excursion correction hold, the
cut-off is `exp(-0.2)` and the particle is reported as crossed. -/
theorem excursion_correction_witness :
    (0 : ℝ) ≤ 0.05 ∧ (0 : ℝ) ≤ x_distance (⟨0.02, 0, 0⟩ : Vect3d ℝ) ∧
    (0.05 : ℝ) ≤ scenario_boundary.test_this_distance_from_wall ∧
    0 < scenario_boundary.D_dt ∧
    (0.818 : ℝ) < Real.exp (-0.2) ∧ Real.exp (-0.2) < (0.820 : ℝ) ∧
    ∃ b', particle_crossed_boundary Real.exp x_distance scenario_boundary 0 0
        = some (true, b') := by
  have hprev0 : (0 : ℝ) ≤ 0.05 := by norm_num
  have hcurr0 : (0 : ℝ) ≤ x_distance (⟨0.02, 0, 0⟩ : Vect3d ℝ) := by norm_num [x_distance]
  have hnear : (0.05 : ℝ) ≤ scenario_boundary.test_this_distance_from_wall := by
    show (0.05 : ℝ) ≤ 0.7071067811865475
    norm_num
  have hDval : scenario_boundary.D_dt = 0.01 := rfl
  have hD : 0 < scenario_boundary.D_dt := by
    rw [hDval]; norm_num
  obtain ⟨⟨crossed, b', hres, hiff⟩, hcut⟩ := excursion_correction x_distance
    scenario_boundary 0 0 inside_species
    [0.05] [0.05] ⟨0.02, 0, 0⟩ 0.05 rfl rfl rfl rfl rfl (by decide) hprev0 hcurr0 hnear hD
  obtain ⟨_, hlo, hhi⟩ := hcut rfl rfl hDval
  have hu : scenario_boundary.uni 0
      < Real.exp (-2 * 0.05 * x_distance (⟨0.02, 0, 0⟩ : Vect3d ℝ) /
        scenario_boundary.D_dt) := by
    have h5 : scenario_boundary.uni 0 = 0.5 := rfl
    rw [h5]
    linarith
  have hc : crossed = true := hiff.2 hu
  rw [hc] at hres
  exact ⟨hprev0, hcurr0, hnear, hD, exp_neg_two_tenths_bounds.1, exp_neg_two_tenths_bounds.2,
    b', hres⟩

end Tyche
